import Mathlib

/-!
Verification of the QBdt (quantum binary-decision-tree) core of the
qci-qrack repository against its natural-language specification.

The tree data model and the traversal/flush/measurement algorithms of
`include/qbdt.hpp` are embedded shallowly.  Amplitudes are complex numbers;
the repository computes over fixed-precision floats with a fuzzy tolerance
`ε`, and this development computes over exact complex rationals (`Cplx`
below), so every "within ε" obligation is settled by exact equality, which
implies it.  Code present under `src/` (the traversal loops, the flush
conditions, `SelectBit`, `RemovePower`, `SampleClone`, `ProbParity`,
`ForceMParity`, and the big-integer layer) is embedded from the source;
node internals (`QBdtNode::Branch/Prune/PopStateVector`, `ApplySingle`,
`MpsShard::IsPhase`, `MAllOptionalCollapse`) are declared but not defined
in the sources available and are modelled from the specification text, as
marked in their doc comments.
-/

/-- Complex numbers with exact rational components.  The repository's
`complex` is `std::complex` over a configurable float; the exact model makes
every amplitude computation decidable. -/
@[ext]
structure Cplx where
  re : ℚ
  im : ℚ
deriving DecidableEq, Repr

namespace Cplx

instance : Zero Cplx := ⟨⟨0, 0⟩⟩

instance : One Cplx := ⟨⟨1, 0⟩⟩

instance : Add Cplx := ⟨fun a b => ⟨a.re + b.re, a.im + b.im⟩⟩

instance : Neg Cplx := ⟨fun a => ⟨-a.re, -a.im⟩⟩

instance : Mul Cplx := ⟨fun a b => ⟨a.re * b.re - a.im * b.im, a.re * b.im + a.im * b.re⟩⟩

@[simp] theorem zero_re : (0 : Cplx).re = 0 := rfl

@[simp] theorem zero_im : (0 : Cplx).im = 0 := rfl

@[simp] theorem one_re : (1 : Cplx).re = 1 := rfl

@[simp] theorem one_im : (1 : Cplx).im = 0 := rfl

@[simp] theorem add_re (a b : Cplx) : (a + b).re = a.re + b.re := rfl

@[simp] theorem add_im (a b : Cplx) : (a + b).im = a.im + b.im := rfl

@[simp] theorem neg_re (a : Cplx) : (-a).re = -a.re := rfl

@[simp] theorem neg_im (a : Cplx) : (-a).im = -a.im := rfl

@[simp] theorem mul_re (a b : Cplx) : (a * b).re = a.re * b.re - a.im * b.im := rfl

@[simp] theorem mul_im (a b : Cplx) : (a * b).im = a.re * b.im + a.im * b.re := rfl

instance : CommRing Cplx where
  add_assoc a b c := by ext <;> simp <;> ring
  zero_add a := by ext <;> simp
  add_zero a := by ext <;> simp
  add_comm a b := by ext <;> simp <;> ring
  mul_assoc a b c := by ext <;> simp <;> ring
  one_mul a := by ext <;> simp
  mul_one a := by ext <;> simp
  left_distrib a b c := by ext <;> simp <;> ring
  right_distrib a b c := by ext <;> simp <;> ring
  mul_comm a b := by ext <;> simp <;> ring
  zero_mul a := by ext <;> simp
  mul_zero a := by ext <;> simp
  neg_add_cancel a := by ext <;> simp
  nsmul := nsmulRec
  zsmul := zsmulRec

/-- Complex conjugate. -/
def conj (z : Cplx) : Cplx := ⟨z.re, -z.im⟩

/-- Squared magnitude, the `norm(scale)` of the C++ sources. -/
def normSq (z : Cplx) : ℚ := z.re * z.re + z.im * z.im

@[simp] theorem normSq_zero : normSq 0 = 0 := by
  simp [normSq]

@[simp] theorem normSq_one : normSq 1 = 1 := by
  simp [normSq]

theorem normSq_mul (a b : Cplx) : normSq (a * b) = normSq a * normSq b := by
  simp [normSq]
  ring

end Cplx

/-- One vertex of the binary decision tree (`QBdtNodeInterface` of
`qbdt_node.hpp`): a complex `scale` and two optional child references
`branches[0]`, `branches[1]`; a null branch terminates descent. -/
inductive QBdtNode where
  | mk (scale : Cplx) (b0 b1 : Option QBdtNode)

namespace QBdtNode

/-- The node's scale factor. -/
def scale : QBdtNode → Cplx
  | mk s _ _ => s

/-- The "qubit = 0" branch. -/
def b0 : QBdtNode → Option QBdtNode
  | mk _ c _ => c

/-- The "qubit = 1" branch. -/
def b1 : QBdtNode → Option QBdtNode
  | mk _ _ c => c

@[simp] theorem scale_mk (s : Cplx) (c0 c1 : Option QBdtNode) : (mk s c0 c1).scale = s := rfl

@[simp] theorem b0_mk (s : Cplx) (c0 c1 : Option QBdtNode) : (mk s c0 c1).b0 = c0 := rfl

@[simp] theorem b1_mk (s : Cplx) (c0 c1 : Option QBdtNode) : (mk s c0 c1).b1 = c1 := rfl

end QBdtNode

/-- Embeds `QBdt::SelectBit(perm, bit) = bi_and_1(perm >> bit)`
(`qbdt.hpp:165`). -/
def selectBit (perm : Nat) (bit : Nat) : Nat := (perm >>> bit) % 2

/-- The per-index loop body of `QBdt::GetTraversal` (`qbdt.hpp:97-110`):
start at the root with its scale, and for `j` in `[0, rem)` descend into
`branches[SelectBit(i, j)]`, breaking on a null branch, otherwise
multiplying the branch's scale into the accumulator. -/
def getAmpLoop (i : Nat) : QBdtNode → Cplx → Nat → Nat → Cplx
  | _, acc, _, 0 => acc
  | node, acc, j, rem + 1 =>
    match (if selectBit i j = 1 then node.b1 else node.b0) with
    | none => acc
    | some leaf => getAmpLoop i leaf (acc * leaf.scale) (j + 1) rem

/-- The amplitude `GetTraversal` delivers for permutation index `i` on a
register of `n` qubits. -/
def getTraversalAmp (n : Nat) (root : QBdtNode) (i : Nat) : Cplx :=
  getAmpLoop i root root.scale 0 n

/-- Structural reformulation of `getAmpLoop` that consumes the low bit of
the index at each level; used to reason about the traversal by induction. -/
def ampS : QBdtNode → Cplx → Nat → Nat → Cplx
  | _, acc, _, 0 => acc
  | node, acc, i, rem + 1 =>
    match (if i % 2 = 1 then node.b1 else node.b0) with
    | none => acc
    | some c => ampS c (acc * c.scale) (i / 2) rem

theorem getAmpLoop_eq_ampS (i : Nat) :
    ∀ (rem : Nat) (t : QBdtNode) (acc : Cplx) (j : Nat),
      getAmpLoop i t acc j rem = ampS t acc (i >>> j) rem := by
  intro rem
  induction rem with
  | zero => intro t acc j; rfl
  | succ m ih =>
    intro t acc j
    have hs : i >>> (j + 1) = (i >>> j) / 2 := Nat.shiftRight_succ i j
    cases t with
    | mk s c0 c1 =>
      rcases Nat.mod_two_eq_zero_or_one (i >>> j) with h2 | h2
      · have hbn : ¬(selectBit i j = 1) := by simp [selectBit, h2]
        have hbn2 : ¬((i >>> j) % 2 = 1) := by omega
        simp only [getAmpLoop, ampS, if_neg hbn, if_neg hbn2]
        cases c0 with
        | none => rfl
        | some c => simp only [QBdtNode.b0_mk]; rw [ih, hs]
      · have hbp : selectBit i j = 1 := h2
        simp only [getAmpLoop, ampS, if_pos hbp, if_pos h2]
        cases c1 with
        | none => rfl
        | some c => simp only [QBdtNode.b1_mk]; rw [ih, hs]

/-- Row-major 2x2 complex matrix, the `const complex* mtrx` argument of
`QBdt::ApplySingle` and the `gate` member of an `MpsShard`. -/
structure GateMtrx where
  m00 : Cplx
  m01 : Cplx
  m10 : Cplx
  m11 : Cplx
deriving DecidableEq

/-- Pending single-qubit unitary buffer of one qubit (`mpsshard.hpp`). -/
structure MpsShard where
  gate : GateMtrx
deriving DecidableEq

/-- Modelled from the spec: `MpsShard::IsPhase` holds when the pending
buffer is "diagonal (a pure relative-phase gate)" (spec section 4.2); in the
exact model the off-diagonal entries are zero (`mpsshard.hpp` is not among
the sources, only its use sites in `qbdt.hpp`). -/
def MpsShard.IsPhase (sh : MpsShard) : Bool :=
  decide (sh.gate.m01 = 0) && decide (sh.gate.m10 = 0)

/-- Modelled from the spec: `QBdt::ApplySingle(mtrx, target)` "commits the
pending matrix into the tree by applying it at every node at target's depth
(standard 2x2 application to the pair of child scales)" (spec section 4.2);
`qbdt.cpp`, which defines it, is not among the sources.  The spec requires
the tree to be already expanded to the target's depth; a node whose pair of
children is not materialized is left unchanged. -/
def applyAt (m : GateMtrx) : Nat → QBdtNode → QBdtNode
  | 0, .mk s c0 c1 =>
    match c0, c1 with
    | some x0, some x1 =>
      .mk s (some (.mk (m.m00 * x0.scale + m.m01 * x1.scale) x0.b0 x0.b1))
            (some (.mk (m.m10 * x0.scale + m.m11 * x1.scale) x1.b0 x1.b1))
    | c0, c1 => .mk s c0 c1
  | d + 1, .mk s c0 c1 => .mk s (c0.map (applyAt m d)) (c1.map (applyAt m d))

/-- Modelled from the spec: the rebuilt tree of `QBdt::SetTraversal`
(`qbdt.hpp:113-137`): a fresh root, `Branch(qubitCount)` materializing the
full structure (interior scales are the fresh-node unit scale, which is the
unique choice that preserves the traversal semantics defined by
`GetTraversal` in the sources), then each leaf's scale is assigned from the
caller-supplied source; `rem` counts remaining levels, `j` the current bit
position and `p` the partial permutation index accumulated so far. -/
def setTree (src : Nat → Cplx) : Nat → Nat → Nat → QBdtNode
  | 0, _, p => .mk (src p) none none
  | rem + 1, j, p =>
    .mk 1 (some (setTree src rem (j + 1) p))
          (some (setTree src rem (j + 1) (p + 2 ^ j)))

/-- Modelled from the spec: `QBdtNode::PopStateVector`, the "internal
flat-to-tree compaction pass" of spec section 4.3 (`qbdt_node.cpp` is not
among the sources).  Its contract is to restore sharing while preserving
every traversal amplitude; on the value-level tree of this embedding,
sharing is not observable and the amplitude-preserving compaction is the
identity. -/
def popStateVector (_ : Nat) (t : QBdtNode) : QBdtNode := t

/-- Modelled from the spec: `QBdtNode::Prune(depth)` (spec section 4.1):
a bottom-up pass in which "a branch whose accumulated scale is zero is
replaced by a canonical empty leaf, short-circuiting further descent on
that side", and sibling subtrees equal up to a unit-magnitude ratio are
shared; on the value-level tree, sharing two equal subtrees produces an
equal tree, so the observable content is the zero-branch collapse. -/
def pruneN : Nat → QBdtNode → QBdtNode
  | 0, t => t
  | d + 1, t =>
    if t.scale = 0 then .mk 0 none none
    else .mk t.scale (t.b0.map (pruneN d)) (t.b1.map (pruneN d))

/-- Register facade state: qubit count, tree root and the per-qubit shard
buffers (`QBdt` members `root` and `shards`, `qbdt.hpp:39-43`).  The
`shards` vector of length `qubitCount` is modelled as a function. -/
structure QBdtState where
  qubitCount : Nat
  root : QBdtNode
  shards : Nat → Option MpsShard

/-- Embeds `QBdt::FlushBuffer(t)` (`qbdt.hpp:51-57`): if qubit `t` has a
pending shard, clear it and commit it through `ApplySingle`. -/
def flushBuffer (t : Nat) (st : QBdtState) : QBdtState :=
  match st.shards t with
  | none => st
  | some shard =>
    ⟨st.qubitCount, applyAt shard.gate t st.root,
      fun i => if i = t then none else st.shards i⟩

/-- Embeds `QBdt::FlushBuffers()` (`qbdt.hpp:59-63`): flush qubits
`0, …, qubitCount - 1` in order. -/
def flushBuffers (st : QBdtState) : QBdtState :=
  (List.range st.qubitCount).foldl (fun s i => flushBuffer i s) st

/-- Embeds the body of the control loop of
`QBdt::FlushIfBlocked(controls)` (`qbdt.hpp:72-80`): a control qubit's
shard is committed and cleared only when it is present and not a phase
gate. -/
def flushControl (s : QBdtState) (control : Nat) : QBdtState :=
  match s.shards control with
  | none => s
  | some shard =>
    if shard.IsPhase then s
    else
      ⟨s.qubitCount, applyAt shard.gate control s.root,
        fun i => if i = control then none else s.shards i⟩

/-- Embeds `QBdt::FlushIfBlocked(controls)` (`qbdt.hpp:72-80`). -/
def flushIfBlockedControls (controls : List Nat) (st : QBdtState) : QBdtState :=
  controls.foldl flushControl st

/-- Embeds `QBdt::FlushIfBlocked(target, controls)` (`qbdt.hpp:65-70`):
first the control pass, then an unconditional `FlushBuffer(target)`. -/
def flushIfBlocked (target : Nat) (controls : List Nat) (st : QBdtState) : QBdtState :=
  flushBuffer target (flushIfBlockedControls controls st)

/-- Embeds `QBdt::DumpBuffers()` (`qbdt.hpp:45-49`): every shard entry is
set to null without being committed. -/
def dumpBuffers (st : QBdtState) : QBdtState :=
  ⟨st.qubitCount, st.root,
    fun i => if i < st.qubitCount then none else st.shards i⟩

/-- Embeds `QBdt::SetTraversal` (`qbdt.hpp:113-137`) at the register level:
`DumpBuffers()`, a fresh fully-branched root whose leaves are assigned from
the caller-supplied source, then `PopStateVector` and `Prune`. -/
def setTraversalSt (src : Nat → Cplx) (st : QBdtState) : QBdtState :=
  let st1 := dumpBuffers st
  ⟨st.qubitCount,
    pruneN st.qubitCount (popStateVector st.qubitCount (setTree src st.qubitCount 0 0)),
    st1.shards⟩

/-- Embeds `QBdt::GetTraversal` (`qbdt.hpp:94-111`) at the register level:
`FlushBuffers()`, then the per-index descent; the result is the mutated
register together with the delivered amplitude for every permutation
index. -/
def getTraversalSt (st : QBdtState) : QBdtState × (Nat → Cplx) :=
  let st1 := flushBuffers st
  (st1, fun i => getAmpLoop i st1.root st1.root.scale 0 st1.qubitCount)

theorem mod_two_pow_succ (m r : Nat) :
    m % 2 ^ (r + 1) = m % 2 + 2 * (m / 2 % 2 ^ r) := by
  rw [pow_succ, Nat.mul_comm (2 ^ r) 2, Nat.mod_mul]


theorem ampS_zero_acc :
    ∀ (rem : Nat) (t : QBdtNode) (i : Nat), ampS t 0 i rem = 0 := by
  intro rem
  induction rem with
  | zero => intro t i; rfl
  | succ m ih =>
    intro t i
    cases t with
    | mk s c0 c1 =>
      simp only [ampS, QBdtNode.b0_mk, QBdtNode.b1_mk]
      by_cases hbit : i % 2 = 1
      · rw [if_pos hbit]
        cases c1 with
        | none => rfl
        | some c =>
          show ampS c (0 * c.scale) (i / 2) m = 0
          rw [zero_mul]
          exact ih c (i / 2)
      · rw [if_neg hbit]
        cases c0 with
        | none => rfl
        | some c =>
          show ampS c (0 * c.scale) (i / 2) m = 0
          rw [zero_mul]
          exact ih c (i / 2)

theorem pruneN_scale (d : Nat) (t : QBdtNode) : (pruneN d t).scale = t.scale := by
  cases d with
  | zero => rfl
  | succ e =>
    simp only [pruneN]
    by_cases h : t.scale = 0
    · rw [if_pos h, h]; rfl
    · rw [if_neg h]; rfl

theorem ampS_pruneN :
    ∀ (d : Nat) (t : QBdtNode) (x : Cplx) (i rem : Nat),
      ampS (pruneN d t) (x * t.scale) i rem = ampS t (x * t.scale) i rem := by
  intro d
  induction d with
  | zero => intro t x i rem; rfl
  | succ e ih =>
    intro t x i rem
    by_cases hz : t.scale = 0
    · have hx : x * t.scale = 0 := by rw [hz, mul_zero]
      rw [hx, ampS_zero_acc, ampS_zero_acc]
    · cases t with
      | mk s c0 c1 =>
        simp only [QBdtNode.scale_mk] at hz
        simp only [pruneN, QBdtNode.scale_mk, if_neg hz]
        cases rem with
        | zero => rfl
        | succ r =>
          simp only [ampS, QBdtNode.b0_mk, QBdtNode.b1_mk]
          by_cases hbit : i % 2 = 1
          · simp only [if_pos hbit]
            cases c1 with
            | none => rfl
            | some c =>
              show ampS (pruneN e c) (x * s * (pruneN e c).scale) (i / 2) r
                  = ampS c (x * s * c.scale) (i / 2) r
              rw [pruneN_scale]
              exact ih c (x * s) (i / 2) r
          · simp only [if_neg hbit]
            cases c0 with
            | none => rfl
            | some c =>
              show ampS (pruneN e c) (x * s * (pruneN e c).scale) (i / 2) r
                  = ampS c (x * s * c.scale) (i / 2) r
              rw [pruneN_scale]
              exact ih c (x * s) (i / 2) r

theorem setTree_scale (src : Nat → Cplx) (rem j p : Nat) (h : 1 ≤ rem) :
    (setTree src rem j p).scale = 1 := by
  cases rem with
  | zero => omega
  | succ r => rfl

theorem ampS_setTree (src : Nat → Cplx) :
    ∀ (rem : Nat), 1 ≤ rem → ∀ (j p : Nat) (acc : Cplx) (m : Nat),
      ampS (setTree src rem j p) acc m rem = acc * src (p + 2 ^ j * (m % 2 ^ rem)) := by
  intro rem
  induction rem with
  | zero => omega
  | succ r ih =>
    intro _ j p acc m
    rcases Nat.mod_two_eq_zero_or_one m with hbit | hbit
    · have hbn : ¬(m % 2 = 1) := by omega
      cases r with
      | zero =>
        simp only [setTree, ampS, QBdtNode.b0_mk, QBdtNode.b1_mk, if_neg hbn]
        show acc * src p = acc * src (p + 2 ^ j * (m % 2 ^ 1))
        rw [pow_one, hbit, Nat.mul_zero, Nat.add_zero]
      | succ r' =>
        simp only [setTree, ampS, QBdtNode.b0_mk, QBdtNode.b1_mk, if_neg hbn]
        show ampS (setTree src (r' + 1) (j + 1) p)
            (acc * (setTree src (r' + 1) (j + 1) p).scale) (m / 2) (r' + 1)
            = acc * src (p + 2 ^ j * (m % 2 ^ (r' + 1 + 1)))
        rw [setTree_scale src (r' + 1) (j + 1) p (by omega), mul_one]
        rw [ih (by omega) (j + 1) p acc (m / 2)]
        have harg : p + 2 ^ (j + 1) * (m / 2 % 2 ^ (r' + 1))
            = p + 2 ^ j * (m % 2 ^ (r' + 1 + 1)) := by
          rw [mod_two_pow_succ m (r' + 1), hbit, pow_succ]
          ring
        rw [harg]
    · cases r with
      | zero =>
        simp only [setTree, ampS, QBdtNode.b0_mk, QBdtNode.b1_mk, if_pos hbit]
        show acc * src (p + 2 ^ j) = acc * src (p + 2 ^ j * (m % 2 ^ 1))
        rw [pow_one, hbit, Nat.mul_one]
      | succ r' =>
        simp only [setTree, ampS, QBdtNode.b0_mk, QBdtNode.b1_mk, if_pos hbit]
        show ampS (setTree src (r' + 1) (j + 1) (p + 2 ^ j))
            (acc * (setTree src (r' + 1) (j + 1) (p + 2 ^ j)).scale) (m / 2) (r' + 1)
            = acc * src (p + 2 ^ j * (m % 2 ^ (r' + 1 + 1)))
        rw [setTree_scale src (r' + 1) (j + 1) (p + 2 ^ j) (by omega), mul_one]
        rw [ih (by omega) (j + 1) (p + 2 ^ j) acc (m / 2)]
        have harg : p + 2 ^ j + 2 ^ (j + 1) * (m / 2 % 2 ^ (r' + 1))
            = p + 2 ^ j * (m % 2 ^ (r' + 1 + 1)) := by
          rw [mod_two_pow_succ m (r' + 1), hbit, pow_succ]
          ring
        rw [harg]

theorem flushBuffer_of_none (t : Nat) (st : QBdtState) (h : st.shards t = none) :
    flushBuffer t st = st := by
  simp only [flushBuffer, h]

theorem foldl_flushBuffer_of_none :
    ∀ (l : List Nat) (st : QBdtState), (∀ i ∈ l, st.shards i = none) →
      l.foldl (fun s i => flushBuffer i s) st = st := by
  intro l
  induction l with
  | nil => intro st _; rfl
  | cons a l ih =>
    intro st h
    rw [List.foldl_cons, flushBuffer_of_none a st (h a (by simp))]
    exact ih st (fun i hi => h i (by simp [hi]))

theorem flushBuffers_of_none (st : QBdtState)
    (h : ∀ i, i < st.qubitCount → st.shards i = none) :
    flushBuffers st = st := by
  apply foldl_flushBuffer_of_none
  intro i hi
  exact h i (List.mem_range.mp hi)

/-- C1: for every normalized flat amplitude array on 1 to 12 qubits,
`SetTraversal` (the write direction used by `SetQuantumState`) followed by
`GetTraversal` (the read direction used by `GetQuantumState`) delivers the
original array back; in the exact model each amplitude is recovered exactly,
which implies equality within the tolerance ε of the floating-point
implementation. -/
theorem c1_set_get_roundtrip (n : Nat) (h1 : 1 ≤ n) (h2 : n ≤ 12)
    (state : Nat → Cplx)
    (hnorm : (Finset.range (2 ^ n)).sum (fun k => Cplx.normSq (state k)) = 1)
    (st : QBdtState) (hq : st.qubitCount = n)
    (i : Nat) (hi : i < 2 ^ n) :
    (getTraversalSt (setTraversalSt state st)).2 i = state i := by
  have hset : setTraversalSt state st
      = ⟨st.qubitCount, pruneN st.qubitCount (setTree state st.qubitCount 0 0),
          fun k => if k < st.qubitCount then none else st.shards k⟩ := rfl
  rw [hset, hq]
  have hflush : flushBuffers
      (⟨n, pruneN n (setTree state n 0 0),
          fun k => if k < n then none else st.shards k⟩ : QBdtState)
      = ⟨n, pruneN n (setTree state n 0 0),
          fun k => if k < n then none else st.shards k⟩ := by
    apply flushBuffers_of_none
    intro k hk
    simp only [if_pos hk]
  show (fun m => getAmpLoop m
      (flushBuffers ⟨n, pruneN n (setTree state n 0 0),
        fun k => if k < n then none else st.shards k⟩).root
      (flushBuffers ⟨n, pruneN n (setTree state n 0 0),
        fun k => if k < n then none else st.shards k⟩).root.scale 0
      (flushBuffers ⟨n, pruneN n (setTree state n 0 0),
        fun k => if k < n then none else st.shards k⟩).qubitCount) i = state i
  rw [hflush]
  show getAmpLoop i (pruneN n (setTree state n 0 0))
      (pruneN n (setTree state n 0 0)).scale 0 n = state i
  rw [getAmpLoop_eq_ampS, Nat.shiftRight_zero]
  rw [pruneN_scale]
  rw [setTree_scale state n 0 0 h1]
  have hone : (1 : Cplx) = 1 * (setTree state n 0 0).scale := by
    rw [setTree_scale state n 0 0 h1, mul_one]
  rw [hone, ampS_pruneN]
  rw [setTree_scale state n 0 0 h1, mul_one]
  rw [ampS_setTree state n h1 0 0 1 i]
  rw [one_mul, pow_zero, Nat.one_mul, Nat.zero_add, Nat.mod_eq_of_lt hi]

/-- Example one-qubit register used in witnesses. -/
def stEx1 : QBdtState := ⟨1, QBdtNode.mk 1 none none, fun _ => none⟩

/-- Example normalized one-qubit amplitude array used in witnesses. -/
def stateEx1 : Nat → Cplx := fun i => if i = 0 then 1 else 0

theorem stateEx1_norm :
    (Finset.range (2 ^ 1)).sum (fun k => Cplx.normSq (stateEx1 k)) = 1 := by
  simp [Finset.sum_range_succ, stateEx1]

theorem c1_set_get_roundtrip_witness :
    (getTraversalSt (setTraversalSt stateEx1 stEx1)).2 0 = stateEx1 0 :=
  c1_set_get_roundtrip 1 (by decide) (by decide) stateEx1 stateEx1_norm stEx1 rfl 0 (by decide)

/-- Product of a list of complex scales. -/
def cprod (l : List Cplx) : Cplx := l.foldr (fun a b => a * b) 1

/-- Spec-side description of the traversal amplitude (claim C2): the node
scales along the root-to-leaf path selected by the bits of the permutation
index, descent stopping at a null branch. -/
def pathScales : QBdtNode → Nat → Nat → List Cplx
  | t, _, 0 => [t.scale]
  | t, i, rem + 1 =>
    t.scale :: (match (if i % 2 = 1 then t.b1 else t.b0) with
      | none => []
      | some c => pathScales c (i / 2) rem)

theorem ampS_eq_cprod_pathScales :
    ∀ (rem : Nat) (t : QBdtNode) (x : Cplx) (i : Nat),
      ampS t (x * t.scale) i rem = x * cprod (pathScales t i rem) := by
  intro rem
  induction rem with
  | zero =>
    intro t x i
    show x * t.scale = x * cprod [t.scale]
    show x * t.scale = x * (t.scale * 1)
    rw [mul_one]
  | succ r ih =>
    intro t x i
    cases t with
    | mk s c0 c1 =>
      simp only [ampS, pathScales, QBdtNode.b0_mk, QBdtNode.b1_mk, QBdtNode.scale_mk]
      by_cases hbit : i % 2 = 1
      · simp only [if_pos hbit]
        cases c1 with
        | none =>
          show x * s = x * cprod [s]
          show x * s = x * (s * 1)
          rw [mul_one]
        | some c =>
          show ampS c (x * s * c.scale) (i / 2) r
              = x * cprod (s :: pathScales c (i / 2) r)
          rw [ih c (x * s) (i / 2)]
          show x * s * cprod (pathScales c (i / 2) r)
              = x * (s * cprod (pathScales c (i / 2) r))
          rw [mul_assoc]
      · simp only [if_neg hbit]
        cases c0 with
        | none =>
          show x * s = x * cprod [s]
          show x * s = x * (s * 1)
          rw [mul_one]
        | some c =>
          show ampS c (x * s * c.scale) (i / 2) r
              = x * cprod (s :: pathScales c (i / 2) r)
          rw [ih c (x * s) (i / 2)]
          show x * s * cprod (pathScales c (i / 2) r)
              = x * (s * cprod (pathScales c (i / 2) r))
          rw [mul_assoc]

theorem flushBuffer_qubitCount (t : Nat) (st : QBdtState) :
    (flushBuffer t st).qubitCount = st.qubitCount := by
  cases h : st.shards t <;> simp [flushBuffer, h]

theorem flushBuffer_shards_none_self (t : Nat) (st : QBdtState) :
    (flushBuffer t st).shards t = none := by
  cases h : st.shards t with
  | none => rw [flushBuffer_of_none t st h]; exact h
  | some sh => simp [flushBuffer, h]

theorem flushBuffer_shards_preserve_none (j t : Nat) (st : QBdtState)
    (h : st.shards t = none) : (flushBuffer j st).shards t = none := by
  cases hj : st.shards j with
  | none => rw [flushBuffer_of_none j st hj]; exact h
  | some sh =>
    simp only [flushBuffer, hj]
    by_cases he : t = j
    · simp [he]
    · simp [he, h]

theorem foldl_flushBuffer_preserve_none :
    ∀ (l : List Nat) (st : QBdtState) (t : Nat), st.shards t = none →
      (l.foldl (fun s i => flushBuffer i s) st).shards t = none := by
  intro l
  induction l with
  | nil => intro st t h; exact h
  | cons a l ih =>
    intro st t h
    rw [List.foldl_cons]
    exact ih (flushBuffer a st) t (flushBuffer_shards_preserve_none a t st h)

theorem foldl_flushBuffer_mem_none :
    ∀ (l : List Nat) (st : QBdtState) (t : Nat), t ∈ l →
      (l.foldl (fun s i => flushBuffer i s) st).shards t = none := by
  intro l
  induction l with
  | nil => intro st t h; cases h
  | cons a l ih =>
    intro st t h
    rw [List.foldl_cons]
    by_cases he : t ∈ l
    · exact ih (flushBuffer a st) t he
    · have hta : t = a := by
        rcases List.mem_cons.mp h with h1 | h2
        · exact h1
        · exact absurd h2 he
      subst hta
      exact foldl_flushBuffer_preserve_none l (flushBuffer t st) t
        (flushBuffer_shards_none_self t st)

theorem foldl_flushBuffer_qubitCount :
    ∀ (l : List Nat) (st : QBdtState),
      (l.foldl (fun s i => flushBuffer i s) st).qubitCount = st.qubitCount := by
  intro l
  induction l with
  | nil => intro st; rfl
  | cons a l ih =>
    intro st
    rw [List.foldl_cons, ih (flushBuffer a st), flushBuffer_qubitCount]

theorem flushBuffers_qubitCount (st : QBdtState) :
    (flushBuffers st).qubitCount = st.qubitCount :=
  foldl_flushBuffer_qubitCount (List.range st.qubitCount) st

theorem flushBuffers_shards_none (st : QBdtState) (t : Nat) (ht : t < st.qubitCount) :
    (flushBuffers st).shards t = none :=
  foldl_flushBuffer_mem_none (List.range st.qubitCount) st t (List.mem_range.mpr ht)

/-- C2: `GetTraversal` first flushes every pending shard buffer (the state
it returns is the flushed state, with no shard left on any qubit), and then
delivers to the caller-supplied sink, for every permutation index `i`, the
amplitude equal to the product of the node scales along the root-to-leaf
path selected by the bits of `i`, descent stopping at a null branch. -/
theorem c2_get_traversal (st : QBdtState) (i : Nat) (t : Nat) (ht : t < st.qubitCount) :
    (getTraversalSt st).1 = flushBuffers st
    ∧ (flushBuffers st).shards t = none
    ∧ (getTraversalSt st).2 i
        = cprod (pathScales (flushBuffers st).root i (flushBuffers st).qubitCount) := by
  refine ⟨rfl, flushBuffers_shards_none st t ht, ?_⟩
  show getAmpLoop i (flushBuffers st).root (flushBuffers st).root.scale 0
      (flushBuffers st).qubitCount
      = cprod (pathScales (flushBuffers st).root i (flushBuffers st).qubitCount)
  rw [getAmpLoop_eq_ampS, Nat.shiftRight_zero]
  have h1 : (flushBuffers st).root.scale = 1 * (flushBuffers st).root.scale := by
    rw [one_mul]
  rw [h1, ampS_eq_cprod_pathScales, one_mul]

theorem c2_get_traversal_witness :
    (getTraversalSt stEx1).1 = flushBuffers stEx1
    ∧ (flushBuffers stEx1).shards 0 = none
    ∧ (getTraversalSt stEx1).2 0
        = cprod (pathScales (flushBuffers stEx1).root 0 (flushBuffers stEx1).qubitCount) :=
  c2_get_traversal stEx1 0 0 (by decide)

theorem flushBuffer_shards_other (j t : Nat) (st : QBdtState) (h : t ≠ j) :
    (flushBuffer j st).shards t = st.shards t := by
  cases hj : st.shards j with
  | none => rw [flushBuffer_of_none j st hj]
  | some sh => simp [flushBuffer, hj, h]

/-- Outcome of the control-flush check on one shard slot: a present
non-phase buffer is cleared (and committed), a phase buffer is kept. -/
def settleShard : Option MpsShard → Option MpsShard
  | none => none
  | some sh => if sh.IsPhase then some sh else none

theorem settleShard_idem (o : Option MpsShard) :
    settleShard (settleShard o) = settleShard o := by
  cases o with
  | none => rfl
  | some sh =>
    by_cases h : sh.IsPhase
    · simp [settleShard, h]
    · simp [settleShard, h]

theorem flushControl_shards_self (s : QBdtState) (c : Nat) :
    (flushControl s c).shards c = settleShard (s.shards c) := by
  cases hc : s.shards c with
  | none => simp [flushControl, hc, settleShard]
  | some sh =>
    by_cases h : sh.IsPhase
    · simp [flushControl, hc, h, settleShard]
    · simp [flushControl, hc, h, settleShard]

theorem flushControl_shards_other (s : QBdtState) (j t : Nat) (h : t ≠ j) :
    (flushControl s j).shards t = s.shards t := by
  cases hj : s.shards j with
  | none => simp [flushControl, hj]
  | some sh =>
    by_cases hp : sh.IsPhase
    · simp [flushControl, hj, hp]
    · simp [flushControl, hj, hp, h]

theorem foldl_flushControl_not_mem :
    ∀ (l : List Nat) (st : QBdtState) (c : Nat), c ∉ l →
      (l.foldl flushControl st).shards c = st.shards c := by
  intro l
  induction l with
  | nil => intro st c _; rfl
  | cons a l ih =>
    intro st c h
    rw [List.foldl_cons]
    have hca : c ≠ a := fun he => h (by simp [he])
    rw [ih (flushControl st a) c (fun he => h (by simp [he]))]
    exact flushControl_shards_other st a c hca

theorem foldl_flushControl_mem :
    ∀ (l : List Nat) (st : QBdtState) (c : Nat), c ∈ l →
      (l.foldl flushControl st).shards c = settleShard (st.shards c) := by
  intro l
  induction l with
  | nil => intro st c h; cases h
  | cons a l ih =>
    intro st c h
    rw [List.foldl_cons]
    by_cases hca : c = a
    · subst hca
      by_cases hmem : c ∈ l
      · rw [ih (flushControl st c) c hmem, flushControl_shards_self, settleShard_idem]
      · rw [foldl_flushControl_not_mem l (flushControl st c) c hmem,
          flushControl_shards_self]
    · have hmem : c ∈ l := by
        rcases List.mem_cons.mp h with h1 | h2
        · exact absurd h1 hca
        · exact h2
      rw [ih (flushControl st a) c hmem, flushControl_shards_other st a c hca]

/-- C3: when a gate names a qubit as a control, that qubit's pending shard
buffer is flushed (cleared, having been committed through `ApplySingle`) if
and only if the buffer is not a diagonal/phase matrix, while a present
phase buffer stays deferred unchanged; the qubit named as target of the
multi-qubit/controlled gate is always flushed
(`QBdt::FlushIfBlocked`, `qbdt.hpp:65-80`). -/
theorem c3_flush_if_blocked (st : QBdtState) (target : Nat) (controls : List Nat)
    (c : Nat) (hc : c ∈ controls) (hct : c ≠ target) :
    (flushIfBlocked target controls st).shards target = none
    ∧ (flushIfBlocked target controls st).shards c = settleShard (st.shards c)
    ∧ (∀ sh, st.shards c = some sh →
        ((flushIfBlocked target controls st).shards c = none ↔ sh.IsPhase = false)) := by
  have htgt : (flushIfBlocked target controls st).shards target = none :=
    flushBuffer_shards_none_self target (flushIfBlockedControls controls st)
  have hcs : (flushIfBlocked target controls st).shards c = settleShard (st.shards c) := by
    show (flushBuffer target (flushIfBlockedControls controls st)).shards c
        = settleShard (st.shards c)
    rw [flushBuffer_shards_other target c (flushIfBlockedControls controls st) hct]
    exact foldl_flushControl_mem controls st c hc
  refine ⟨htgt, hcs, ?_⟩
  intro sh hsh
  rw [hcs, hsh]
  cases hp : sh.IsPhase
  · simp [settleShard, hp]
  · simp [settleShard, hp]

/-- Example register with one phase shard on qubit 0 and one non-phase
shard on qubit 1, used in witnesses. -/
def stEx3 : QBdtState :=
  ⟨2, QBdtNode.mk 1 (some (QBdtNode.mk 1 none none)) (some (QBdtNode.mk 0 none none)),
    fun i =>
      if i = 0 then some ⟨⟨1, 0, 0, ⟨0, 1⟩⟩⟩
      else if i = 1 then some ⟨⟨0, 1, 1, 0⟩⟩
      else none⟩

theorem c3_flush_if_blocked_witness :
    (flushIfBlocked 1 [0] stEx3).shards 1 = none
    ∧ (flushIfBlocked 1 [0] stEx3).shards 0 = settleShard (stEx3.shards 0)
    ∧ (∀ sh, stEx3.shards 0 = some sh →
        ((flushIfBlocked 1 [0] stEx3).shards 0 = none ↔ sh.IsPhase = false)) :=
  c3_flush_if_blocked stEx3 1 [0] 0 (by decide) (by decide)

theorem foldl_flushBuffer_not_mem :
    ∀ (l : List Nat) (st : QBdtState) (t : Nat), t ∉ l →
      (l.foldl (fun s i => flushBuffer i s) st).shards t = st.shards t := by
  intro l
  induction l with
  | nil => intro st t _; rfl
  | cons a l ih =>
    intro st t h
    rw [List.foldl_cons]
    have hta : t ≠ a := fun he => h (by simp [he])
    rw [ih (flushBuffer a st) t (fun he => h (by simp [he]))]
    exact flushBuffer_shards_other a t st hta

theorem flushBuffers_shards_ge (st : QBdtState) (k : Nat) (hk : st.qubitCount ≤ k) :
    (flushBuffers st).shards k = st.shards k := by
  apply foldl_flushBuffer_not_mem
  intro hmem
  exact absurd (List.mem_range.mp hmem) (by omega)

/-- C4: both traversal directions leave no pending shard buffer behind, and
both behave exactly as if every pending buffer had been flushed first: the
read direction (`GetTraversal`) literally runs `FlushBuffers()`, which
commits each non-null buffer through `ApplySingle`, before descending, and
the write direction (`SetTraversal`) produces, from any state, the very
state it produces from the fully flushed state (its `DumpBuffers()` clears
the buffers while the tree is rebuilt from the caller's data, which is
observably the commit-then-rebuild result). -/
theorem c4_traversal_flush (st : QBdtState) (src : Nat → Cplx) :
    setTraversalSt src st = setTraversalSt src (flushBuffers st)
    ∧ (getTraversalSt st).1 = flushBuffers st
    ∧ (∀ t, t < st.qubitCount → (setTraversalSt src st).shards t = none)
    ∧ (∀ t, t < st.qubitCount → (flushBuffers st).shards t = none) := by
  refine ⟨?_, rfl, ?_, ?_⟩
  · show (⟨st.qubitCount, pruneN st.qubitCount (setTree src st.qubitCount 0 0),
        fun k => if k < st.qubitCount then none else st.shards k⟩ : QBdtState)
      = ⟨(flushBuffers st).qubitCount,
          pruneN (flushBuffers st).qubitCount
            (setTree src (flushBuffers st).qubitCount 0 0),
          fun k => if k < (flushBuffers st).qubitCount then none
            else (flushBuffers st).shards k⟩
    rw [flushBuffers_qubitCount]
    congr 1
    funext k
    by_cases hk : k < st.qubitCount
    · simp [hk]
    · simp only [if_neg hk]
      exact (flushBuffers_shards_ge st k (le_of_not_lt hk)).symm
  · intro t ht
    show (if t < st.qubitCount then none else st.shards t) = none
    simp [ht]
  · intro t ht
    exact flushBuffers_shards_none st t ht

theorem c4_traversal_flush_witness :
    (setTraversalSt stateEx1 stEx3).shards 0 = none
    ∧ (flushBuffers stEx3).shards 1 = none :=
  ⟨(c4_traversal_flush stEx3 stateEx1).2.2.1 0 (by decide),
    (c4_traversal_flush stEx3 stateEx1).2.2.2 1 (by decide)⟩

/-- Statistical weight of a subtree `k` levels deep, excluding the node's
own scale: the sum over all `2^k` index suffixes of the squared magnitude
of the product of strict-descendant scales; a null branch contributes the
accumulated value once per suffix below it. -/
def treeWeight : Nat → QBdtNode → ℚ
  | 0, _ => 1
  | k + 1, t =>
    (match t.b0 with
      | none => (2 : ℚ) ^ k
      | some c => Cplx.normSq c.scale * treeWeight k c)
    + (match t.b1 with
      | none => (2 : ℚ) ^ k
      | some c => Cplx.normSq c.scale * treeWeight k c)

/-- The representation invariant maintained between gates (spec sections 3
and 4.1): the tree is materialized down to the terminal depth and, at every
node, the two branch weights sum to one (each subtree is locally
normalized). -/
def locallyNormal : Nat → QBdtNode → Prop
  | 0, _ => True
  | k + 1, t => ∃ c0 c1, t.b0 = some c0 ∧ t.b1 = some c1
      ∧ Cplx.normSq c0.scale * treeWeight k c0
          + Cplx.normSq c1.scale * treeWeight k c1 = 1
      ∧ locallyNormal k c0 ∧ locallyNormal k c1

theorem locallyNormal_treeWeight :
    ∀ (k : Nat) (t : QBdtNode), locallyNormal k t → treeWeight k t = 1 := by
  intro k t h
  cases k with
  | zero => rfl
  | succ m =>
    obtain ⟨c0, c1, h0, h1, hsum, _, _⟩ := h
    simp only [treeWeight, h0, h1]
    exact hsum

theorem sum_range_double (m : Nat) (f : Nat → ℚ) :
    (Finset.range (2 * m)).sum f
      = (Finset.range m).sum (fun q => f (2 * q) + f (2 * q + 1)) := by
  induction m with
  | zero => rfl
  | succ p ih =>
    have h2 : 2 * (p + 1) = (2 * p + 1) + 1 := by omega
    rw [h2, Finset.sum_range_succ, Finset.sum_range_succ, ih, Finset.sum_range_succ]
    ring

theorem ampS_even (t : QBdtNode) (x : Cplx) (q k : Nat) :
    ampS t x (2 * q) (k + 1)
      = match t.b0 with
        | none => x
        | some c => ampS c (x * c.scale) q k := by
  cases t with
  | mk s c0 c1 =>
    have hm : ¬((2 * q) % 2 = 1) := by omega
    simp only [ampS, QBdtNode.b0_mk, QBdtNode.b1_mk, if_neg hm]
    cases c0 with
    | none => rfl
    | some c =>
      have hd : 2 * q / 2 = q := by omega
      rw [hd]

theorem ampS_odd (t : QBdtNode) (x : Cplx) (q k : Nat) :
    ampS t x (2 * q + 1) (k + 1)
      = match t.b1 with
        | none => x
        | some c => ampS c (x * c.scale) q k := by
  cases t with
  | mk s c0 c1 =>
    have hm : (2 * q + 1) % 2 = 1 := by omega
    simp only [ampS, QBdtNode.b0_mk, QBdtNode.b1_mk, if_pos hm]
    cases c1 with
    | none => rfl
    | some c =>
      have hd : (2 * q + 1) / 2 = q := by omega
      rw [hd]

theorem sum_normSq_ampS :
    ∀ (k : Nat) (t : QBdtNode) (x : Cplx),
      (Finset.range (2 ^ k)).sum (fun i => Cplx.normSq (ampS t x i k))
        = Cplx.normSq x * treeWeight k t := by
  intro k
  induction k with
  | zero =>
    intro t x
    rw [pow_zero, Finset.sum_range_one]
    show Cplx.normSq x = Cplx.normSq x * treeWeight 0 t
    rw [show treeWeight 0 t = 1 from rfl, mul_one]
  | succ m ih =>
    intro t x
    have hp : 2 ^ (m + 1) = 2 * 2 ^ m := by rw [pow_succ]; ring
    rw [hp, sum_range_double]
    have hpt : ∀ q, Cplx.normSq (ampS t x (2 * q) (m + 1))
          + Cplx.normSq (ampS t x (2 * q + 1) (m + 1))
        = Cplx.normSq (match t.b0 with
            | none => x
            | some c => ampS c (x * c.scale) q m)
          + Cplx.normSq (match t.b1 with
            | none => x
            | some c => ampS c (x * c.scale) q m) := by
      intro q
      rw [ampS_even, ampS_odd]
    rw [Finset.sum_congr rfl (fun q _ => hpt q), Finset.sum_add_distrib]
    have hhalf : ∀ (b : Option QBdtNode),
        (Finset.range (2 ^ m)).sum (fun q => Cplx.normSq (match b with
            | none => x
            | some c => ampS c (x * c.scale) q m))
          = Cplx.normSq x * (match b with
            | none => (2 : ℚ) ^ m
            | some c => Cplx.normSq c.scale * treeWeight m c) := by
      intro b
      cases b with
      | none =>
        show (Finset.range (2 ^ m)).sum (fun _ => Cplx.normSq x)
            = Cplx.normSq x * (2 : ℚ) ^ m
        rw [Finset.sum_const, Finset.card_range, nsmul_eq_mul]
        push_cast
        ring
      | some c =>
        show (Finset.range (2 ^ m)).sum (fun q => Cplx.normSq (ampS c (x * c.scale) q m))
            = Cplx.normSq x * (Cplx.normSq c.scale * treeWeight m c)
        rw [ih c (x * c.scale), Cplx.normSq_mul]
        ring
    rw [hhalf t.b0, hhalf t.b1]
    cases t with
    | mk s c0 c1 =>
      simp only [treeWeight, QBdtNode.b0_mk, QBdtNode.b1_mk]
      ring

@[simp] theorem Cplx.conj_re (z : Cplx) : (Cplx.conj z).re = z.re := rfl

@[simp] theorem Cplx.conj_im (z : Cplx) : (Cplx.conj z).im = -z.im := rfl

/-- Unitarity of a 2x2 matrix, expressed as orthonormality of its columns:
exactly the condition under which the map
`(s0, s1) ↦ (m00 s0 + m01 s1, m10 s0 + m11 s1)` preserves the sum of
squared magnitudes. -/
def IsUnitary (m : GateMtrx) : Prop :=
  Cplx.normSq m.m00 + Cplx.normSq m.m10 = 1
  ∧ Cplx.normSq m.m01 + Cplx.normSq m.m11 = 1
  ∧ m.m00 * Cplx.conj m.m01 + m.m10 * Cplx.conj m.m11 = 0

theorem unitary_normSq_pair (m : GateMtrx) (hu : IsUnitary m) (a b : Cplx) :
    Cplx.normSq (m.m00 * a + m.m01 * b) + Cplx.normSq (m.m10 * a + m.m11 * b)
      = Cplx.normSq a + Cplx.normSq b := by
  obtain ⟨h1, h2, h3⟩ := hu
  have h3re := congrArg Cplx.re h3
  have h3im := congrArg Cplx.im h3
  simp only [Cplx.add_re, Cplx.add_im, Cplx.mul_re, Cplx.mul_im, Cplx.zero_re,
    Cplx.zero_im, Cplx.conj_re, Cplx.conj_im] at h3re h3im
  simp only [Cplx.normSq, Cplx.add_re, Cplx.add_im, Cplx.mul_re, Cplx.mul_im] at h1 h2 ⊢
  linear_combination (a.re ^ 2 + a.im ^ 2) * h1 + (b.re ^ 2 + b.im ^ 2) * h2
    + (2 * (a.re * b.re + a.im * b.im)) * h3re
    + (2 * (a.re * b.im - a.im * b.re)) * h3im

theorem applyAt_scale (g : GateMtrx) : ∀ (d : Nat) (t : QBdtNode),
    (applyAt g d t).scale = t.scale := by
  intro d t
  cases d with
  | zero =>
    cases t with
    | mk s c0 c1 =>
      cases c0 with
      | none => cases c1 <;> rfl
      | some x0 => cases c1 <;> rfl
  | succ e =>
    cases t with
    | mk s c0 c1 => rfl

theorem treeWeight_replace_scale (k : Nat) (s' : Cplx) (t : QBdtNode) :
    treeWeight k (QBdtNode.mk s' t.b0 t.b1) = treeWeight k t := by
  cases k with
  | zero => rfl
  | succ m => simp only [treeWeight, QBdtNode.b0_mk, QBdtNode.b1_mk]

theorem locallyNormal_replace_scale (k : Nat) (s' : Cplx) (t : QBdtNode) :
    locallyNormal k (QBdtNode.mk s' t.b0 t.b1) ↔ locallyNormal k t := by
  cases k with
  | zero => exact Iff.rfl
  | succ m => simp only [locallyNormal, QBdtNode.b0_mk, QBdtNode.b1_mk]

theorem applyAt_preserves (g : GateMtrx) (hu : IsUnitary g) :
    ∀ (tr k : Nat) (t : QBdtNode), tr < k → locallyNormal k t →
      locallyNormal k (applyAt g tr t)
      ∧ treeWeight k (applyAt g tr t) = treeWeight k t := by
  intro tr
  induction tr with
  | zero =>
    intro k t hk hln
    cases k with
    | zero => omega
    | succ m =>
      obtain ⟨c0, c1, h0, h1, hsum, hln0, hln1⟩ := hln
      cases t with
      | mk s d0 d1 =>
        simp only [QBdtNode.b0_mk, QBdtNode.b1_mk] at h0 h1
        subst h0
        subst h1
        have hW0 : treeWeight m c0 = 1 := locallyNormal_treeWeight m c0 hln0
        have hW1 : treeWeight m c1 = 1 := locallyNormal_treeWeight m c1 hln1
        have hnorm : Cplx.normSq (g.m00 * c0.scale + g.m01 * c1.scale)
              + Cplx.normSq (g.m10 * c0.scale + g.m11 * c1.scale)
            = Cplx.normSq c0.scale + Cplx.normSq c1.scale :=
          unitary_normSq_pair g hu c0.scale c1.scale
        have hsum1 : Cplx.normSq c0.scale + Cplx.normSq c1.scale = 1 := by
          rw [hW0, hW1, mul_one, mul_one] at hsum
          exact hsum
        show locallyNormal (m + 1)
            (QBdtNode.mk s
              (some (QBdtNode.mk (g.m00 * c0.scale + g.m01 * c1.scale) c0.b0 c0.b1))
              (some (QBdtNode.mk (g.m10 * c0.scale + g.m11 * c1.scale) c1.b0 c1.b1)))
          ∧ treeWeight (m + 1)
            (QBdtNode.mk s
              (some (QBdtNode.mk (g.m00 * c0.scale + g.m01 * c1.scale) c0.b0 c0.b1))
              (some (QBdtNode.mk (g.m10 * c0.scale + g.m11 * c1.scale) c1.b0 c1.b1)))
            = treeWeight (m + 1) (QBdtNode.mk s (some c0) (some c1))
        constructor
        · refine ⟨QBdtNode.mk (g.m00 * c0.scale + g.m01 * c1.scale) c0.b0 c0.b1,
            QBdtNode.mk (g.m10 * c0.scale + g.m11 * c1.scale) c1.b0 c1.b1,
            rfl, rfl, ?_, ?_, ?_⟩
          · rw [QBdtNode.scale_mk, QBdtNode.scale_mk,
              treeWeight_replace_scale m _ c0, treeWeight_replace_scale m _ c1,
              hW0, hW1, mul_one, mul_one, hnorm, hsum1]
          · exact (locallyNormal_replace_scale m _ c0).mpr hln0
          · exact (locallyNormal_replace_scale m _ c1).mpr hln1
        · simp only [treeWeight, QBdtNode.b0_mk, QBdtNode.b1_mk, QBdtNode.scale_mk]
          rw [treeWeight_replace_scale m _ c0, treeWeight_replace_scale m _ c1,
            hW0, hW1, mul_one, mul_one, hnorm, hsum1]
          rw [mul_one, mul_one, hsum1]
  | succ d ihd =>
    intro k t hk hln
    cases k with
    | zero => omega
    | succ m =>
      obtain ⟨c0, c1, h0, h1, hsum, hln0, hln1⟩ := hln
      cases t with
      | mk s d0 d1 =>
        simp only [QBdtNode.b0_mk, QBdtNode.b1_mk] at h0 h1
        subst h0
        subst h1
        obtain ⟨hLN0, hW0⟩ := ihd m c0 (by omega) hln0
        obtain ⟨hLN1, hW1⟩ := ihd m c1 (by omega) hln1
        show locallyNormal (m + 1)
            (QBdtNode.mk s (some (applyAt g d c0)) (some (applyAt g d c1)))
          ∧ treeWeight (m + 1)
            (QBdtNode.mk s (some (applyAt g d c0)) (some (applyAt g d c1)))
            = treeWeight (m + 1) (QBdtNode.mk s (some c0) (some c1))
        constructor
        · refine ⟨applyAt g d c0, applyAt g d c1, rfl, rfl, ?_, hLN0, hLN1⟩
          rw [applyAt_scale, applyAt_scale, hW0, hW1]
          exact hsum
        · simp only [treeWeight, QBdtNode.b0_mk, QBdtNode.b1_mk]
          rw [applyAt_scale, applyAt_scale, hW0, hW1]

/-- Sequential application of committed single-qubit gates
`(matrix, target qubit)`, the tree-level effect of a gate sequence after
flushing. -/
def applyGates : List (GateMtrx × Nat) → QBdtNode → QBdtNode
  | [], t => t
  | g :: gs, t => applyGates gs (applyAt g.1 g.2 t)

theorem applyGates_preserves (n : Nat) :
    ∀ (gs : List (GateMtrx × Nat)) (t : QBdtNode),
      (∀ g ∈ gs, IsUnitary g.1 ∧ g.2 < n) → locallyNormal n t →
      locallyNormal n (applyGates gs t) ∧ (applyGates gs t).scale = t.scale := by
  intro gs
  induction gs with
  | nil => intro t _ hln; exact ⟨hln, rfl⟩
  | cons g gs ih =>
    intro t hg hln
    have hgh : IsUnitary g.1 ∧ g.2 < n := hg g (by simp)
    have hstep := applyAt_preserves g.1 hgh.1 g.2 n t hgh.2 hln
    have hrest := ih (applyAt g.1 g.2 t) (fun x hx => hg x (by simp [hx])) hstep.1
    refine ⟨hrest.1, ?_⟩
    show (applyGates gs (applyAt g.1 g.2 t)).scale = t.scale
    rw [hrest.2, applyAt_scale]

/-- C5: after any sequence of unitary single-qubit gate applications
(committed into the tree, as every readout path does after flushing) and no
measurement, the sum over all `2^n` permutation indices of the squared
magnitude of the delivered amplitude equals 1 — exactly in this model,
hence within ε in the floating-point implementation — provided the tree
satisfies the representation invariant (materialized, locally normalized,
unit-magnitude root scale) that `Branch`/`PopStateVector`/`NormalizeState`
maintain. -/
theorem c5_normalization (n : Nat) (gates : List (GateMtrx × Nat))
    (hg : ∀ g ∈ gates, IsUnitary g.1 ∧ g.2 < n)
    (root : QBdtNode) (hln : locallyNormal n root)
    (hsc : Cplx.normSq root.scale = 1) :
    (Finset.range (2 ^ n)).sum
      (fun i => Cplx.normSq (getTraversalAmp n (applyGates gates root) i)) = 1 := by
  have h := applyGates_preserves n gates root hg hln
  have hamp : ∀ i, getTraversalAmp n (applyGates gates root) i
      = ampS (applyGates gates root) (applyGates gates root).scale i n := by
    intro i
    unfold getTraversalAmp
    rw [getAmpLoop_eq_ampS, Nat.shiftRight_zero]
  rw [Finset.sum_congr rfl (fun i _ => by rw [hamp i])]
  rw [sum_normSq_ampS n (applyGates gates root) (applyGates gates root).scale]
  rw [h.2, hsc, locallyNormal_treeWeight n (applyGates gates root) h.1, one_mul]

/-- Example Pauli-X gate matrix. -/
def gateX : GateMtrx := ⟨0, 1, 1, 0⟩

/-- Example locally-normalized one-qubit tree with amplitudes 3/5 and 4/5. -/
def rootEx5 : QBdtNode :=
  QBdtNode.mk 1 (some (QBdtNode.mk ⟨3 / 5, 0⟩ none none))
    (some (QBdtNode.mk ⟨0, 4 / 5⟩ none none))

theorem gateX_unitary : IsUnitary gateX := by
  refine ⟨?_, ?_, ?_⟩
  · simp [gateX]
  · simp [gateX]
  · show (0 : Cplx) * Cplx.conj 1 + 1 * Cplx.conj 0 = 0
    ext <;> simp [Cplx.conj]

theorem rootEx5_locallyNormal : locallyNormal 1 rootEx5 := by
  refine ⟨QBdtNode.mk ⟨3 / 5, 0⟩ none none, QBdtNode.mk ⟨0, 4 / 5⟩ none none,
    rfl, rfl, ?_, trivial, trivial⟩
  show Cplx.normSq ⟨3 / 5, 0⟩ * treeWeight 0 (QBdtNode.mk ⟨3 / 5, 0⟩ none none)
      + Cplx.normSq ⟨0, 4 / 5⟩ * treeWeight 0 (QBdtNode.mk ⟨0, 4 / 5⟩ none none) = 1
  norm_num [Cplx.normSq, treeWeight]

theorem c5_normalization_witness :
    (Finset.range (2 ^ 1)).sum
      (fun i => Cplx.normSq (getTraversalAmp 1 (applyGates [(gateX, 0)] rootEx5) i)) = 1 := by
  refine c5_normalization 1 [(gateX, 0)] ?_ rootEx5 rootEx5_locallyNormal ?_
  · intro g hgm
    have hg1 : g = (gateX, 0) := by
      simpa using hgm
    subst hg1
    exact ⟨gateX_unitary, by decide⟩
  · show Cplx.normSq rootEx5.scale = 1
    simp [rootEx5]

/-- Modelled from the spec: one branch choice of the `MAllOptionalCollapse`
walk (spec section 4.5): the "1" branch is taken with probability equal to
its locally renormalized squared magnitude; the uniform draw `u` selects it
when `u * (p0 + p1) < p1`.  `branchProb` is the unnormalized squared
magnitude of one branch (zero for a null branch). -/
def branchProb : Option QBdtNode → ℚ
  | none => 0
  | some c => Cplx.normSq c.scale

/-- Modelled from the spec: the branch choice of one step of the
`MAllOptionalCollapse` walk, see `branchProb`. -/
def sampleBit (u : ℚ) (t : QBdtNode) : Nat :=
  if u * (branchProb t.b0 + branchProb t.b1) < branchProb t.b1 then 1 else 0

/-- Modelled from the spec: the single root-to-leaf walk of
`MAllOptionalCollapse` (spec section 4.5), driven by one uniform draw per
depth; `qbdt.cpp`, which defines it, is not among the sources.  The sampled
joint outcome accumulates bit `j` of the permutation at depth `j`. -/
def sampleWalk (draws : Nat → ℚ) : QBdtNode → Nat → Nat → Nat
  | _, _, 0 => 0
  | t, j, rem + 1 =>
    let b := sampleBit (draws j) t
    match (if b = 1 then t.b1 else t.b0) with
    | none => 0
    | some c => b * 2 ^ j + sampleWalk draws c (j + 1) rem

/-- Canonical tree of the basis state `|perm⟩`: along the sampled path every
scale is one, the discarded sibling is the canonical empty (zero) leaf. -/
def basisChain (perm : Nat) : Nat → QBdtNode
  | 0 => QBdtNode.mk 1 none none
  | rem + 1 =>
    if perm % 2 = 1 then
      QBdtNode.mk 1 (some (QBdtNode.mk 0 none none)) (some (basisChain (perm / 2) rem))
    else
      QBdtNode.mk 1 (some (basisChain (perm / 2) rem)) (some (QBdtNode.mk 0 none none))

/-- Modelled from the spec: `QBdt::MAllOptionalCollapse(isCollapsing)`
(spec section 4.5): sample a complete joint outcome in one walk; if
collapsing, mutate the tree in place to the sampled path; otherwise leave
the register untouched. -/
def mallOptionalCollapse (isCollapsing : Bool) (draws : Nat → ℚ) (st : QBdtState) :
    Nat × QBdtState :=
  let sample := sampleWalk draws st.root 0 st.qubitCount
  (sample,
    if isCollapsing then
      ⟨st.qubitCount, basisChain sample st.qubitCount, st.shards⟩
    else st)

/-- Embeds `QBdt::MAll() { return MAllOptionalCollapse(true); }`
(`qbdt.hpp:304`). -/
def MAll (draws : Nat → ℚ) (st : QBdtState) : Nat × QBdtState :=
  mallOptionalCollapse true draws st

theorem ampS_noChildren (s : Cplx) (acc : Cplx) (i : Nat) :
    ∀ rem, ampS (QBdtNode.mk s none none) acc i rem = acc := by
  intro rem
  cases rem with
  | zero => rfl
  | succ r =>
    simp only [ampS, QBdtNode.b0_mk, QBdtNode.b1_mk]
    by_cases h : i % 2 = 1
    · simp [h]
    · simp [h]

theorem basisChain_scale (perm rem : Nat) : (basisChain perm rem).scale = 1 := by
  cases rem with
  | zero => rfl
  | succ r =>
    by_cases h : perm % 2 = 1
    · simp [basisChain, h]
    · simp [basisChain, h]

theorem ampS_basisChain :
    ∀ (rem perm : Nat) (x : Cplx) (i : Nat),
      ampS (basisChain perm rem) x i rem
        = if i % 2 ^ rem = perm % 2 ^ rem then x else 0 := by
  intro rem
  induction rem with
  | zero =>
    intro perm x i
    simp [ampS, Nat.mod_one]
  | succ r ih =>
    intro perm x i
    rcases Nat.mod_two_eq_zero_or_one perm with hp | hp
    · have hpn : ¬(perm % 2 = 1) := by omega
      simp only [basisChain, if_neg hpn]
      rcases Nat.mod_two_eq_zero_or_one i with hi2 | hi2
      · have hin : ¬(i % 2 = 1) := by omega
        simp only [ampS, QBdtNode.b0_mk, QBdtNode.b1_mk, if_neg hin]
        show ampS (basisChain (perm / 2) r) (x * (basisChain (perm / 2) r).scale)
            (i / 2) r = if i % 2 ^ (r + 1) = perm % 2 ^ (r + 1) then x else 0
        rw [basisChain_scale, mul_one, ih (perm / 2) x (i / 2)]
        by_cases hAB : i / 2 % 2 ^ r = perm / 2 % 2 ^ r
        · rw [if_pos hAB, if_pos]
          rw [mod_two_pow_succ, mod_two_pow_succ, hi2, hp, hAB]
        · rw [if_neg hAB, if_neg]
          rw [mod_two_pow_succ, mod_two_pow_succ, hi2, hp]
          omega
      · simp only [ampS, QBdtNode.b0_mk, QBdtNode.b1_mk, if_pos hi2]
        show ampS (QBdtNode.mk 0 none none) (x * (QBdtNode.mk 0 none none).scale)
            (i / 2) r = if i % 2 ^ (r + 1) = perm % 2 ^ (r + 1) then x else 0
        rw [ampS_noChildren, QBdtNode.scale_mk, mul_zero, if_neg]
        rw [mod_two_pow_succ, mod_two_pow_succ, hi2, hp]
        omega
    · simp only [basisChain, if_pos hp]
      rcases Nat.mod_two_eq_zero_or_one i with hi2 | hi2
      · have hin : ¬(i % 2 = 1) := by omega
        simp only [ampS, QBdtNode.b0_mk, QBdtNode.b1_mk, if_neg hin]
        show ampS (QBdtNode.mk 0 none none) (x * (QBdtNode.mk 0 none none).scale)
            (i / 2) r = if i % 2 ^ (r + 1) = perm % 2 ^ (r + 1) then x else 0
        rw [ampS_noChildren, QBdtNode.scale_mk, mul_zero, if_neg]
        rw [mod_two_pow_succ, mod_two_pow_succ, hi2, hp]
        omega
      · simp only [ampS, QBdtNode.b0_mk, QBdtNode.b1_mk, if_pos hi2]
        show ampS (basisChain (perm / 2) r) (x * (basisChain (perm / 2) r).scale)
            (i / 2) r = if i % 2 ^ (r + 1) = perm % 2 ^ (r + 1) then x else 0
        rw [basisChain_scale, mul_one, ih (perm / 2) x (i / 2)]
        by_cases hAB : i / 2 % 2 ^ r = perm / 2 % 2 ^ r
        · rw [if_pos hAB, if_pos]
          rw [mod_two_pow_succ, mod_two_pow_succ, hi2, hp, hAB]
        · rw [if_neg hAB, if_neg]
          rw [mod_two_pow_succ, mod_two_pow_succ, hi2, hp]
          omega

theorem sampleBit_le_one (u : ℚ) (t : QBdtNode) : sampleBit u t ≤ 1 := by
  simp only [sampleBit]
  split
  · omega
  · omega

theorem sampleWalk_bound (draws : Nat → ℚ) :
    ∀ (rem : Nat) (t : QBdtNode) (j : Nat),
      ∃ q, sampleWalk draws t j rem = 2 ^ j * q ∧ q < 2 ^ rem := by
  intro rem
  induction rem with
  | zero =>
    intro t j
    exact ⟨0, by simp [sampleWalk], by omega⟩
  | succ r ih =>
    intro t j
    simp only [sampleWalk]
    cases hb : (if sampleBit (draws j) t = 1 then t.b1 else t.b0) with
    | none =>
      refine ⟨0, by simp, ?_⟩
      exact Nat.pos_pow_of_pos (r + 1) (by omega)
    | some c =>
      obtain ⟨q, hq, hlt⟩ := ih c (j + 1)
      refine ⟨sampleBit (draws j) t + 2 * q, ?_, ?_⟩
      · show sampleBit (draws j) t * 2 ^ j + sampleWalk draws c (j + 1) r
            = 2 ^ j * (sampleBit (draws j) t + 2 * q)
        rw [hq, pow_succ]
        ring
      · have hble := sampleBit_le_one (draws j) t
        have hps : 2 ^ (r + 1) = 2 * 2 ^ r := by rw [pow_succ]; ring
        omega

/-- C6: `MAllOptionalCollapse` with `isCollapsing = false` (the call
`SampleClone` makes, `qbdt.hpp:180-190`) returns a sampled joint outcome
while leaving the register — tree and shard buffers — unchanged, so the
amplitudes read out afterwards equal those before the call; whereas `MAll`
(`MAllOptionalCollapse(true)`, `qbdt.hpp:304`) mutates the tree in place to
the sampled path: afterwards the traversal amplitude is 1 at the sampled
permutation and 0 everywhere else. -/
theorem c6_sample_no_collapse (draws : Nat → ℚ) (st : QBdtState) (i : Nat)
    (hi : i < 2 ^ st.qubitCount) :
    (mallOptionalCollapse false draws st).2 = st
    ∧ (getTraversalSt (mallOptionalCollapse false draws st).2).2 = (getTraversalSt st).2
    ∧ getTraversalAmp st.qubitCount (MAll draws st).2.root i
        = (if i = (MAll draws st).1 then 1 else 0) := by
  refine ⟨rfl, rfl, ?_⟩
  show getTraversalAmp st.qubitCount
      (basisChain (sampleWalk draws st.root 0 st.qubitCount) st.qubitCount) i
      = (if i = sampleWalk draws st.root 0 st.qubitCount then 1 else 0)
  unfold getTraversalAmp
  rw [getAmpLoop_eq_ampS, Nat.shiftRight_zero, basisChain_scale, ampS_basisChain]
  obtain ⟨q, hq, hlt⟩ := sampleWalk_bound draws st.qubitCount st.root 0
  have hs : sampleWalk draws st.root 0 st.qubitCount < 2 ^ st.qubitCount := by
    rw [hq, pow_zero, one_mul]
    exact hlt
  rw [Nat.mod_eq_of_lt hi, Nat.mod_eq_of_lt hs]

theorem c6_sample_no_collapse_witness :
    (mallOptionalCollapse false (fun _ => 1 / 2) stEx1).2 = stEx1
    ∧ (getTraversalSt (mallOptionalCollapse false (fun _ => 1 / 2) stEx1).2).2
        = (getTraversalSt stEx1).2
    ∧ getTraversalAmp stEx1.qubitCount (MAll (fun _ => 1 / 2) stEx1).2.root 0
        = (if 0 = (MAll (fun _ => 1 / 2) stEx1).1 then 1 else 0) :=
  c6_sample_no_collapse (fun _ => 1 / 2) stEx1 0 (by decide)

/-- Embeds the GMP-based `bi_compare_0` of the restored big-integer header
(`src/unnamed/part_000:1041-1043`): `return left.is_zero() ? 1 : 0;` — it
returns 1 when the argument is zero and 0 otherwise. -/
def bi_compare_0 (x : Int) : Int :=
  if x = 0 then 1 else 0

/-- Embeds the word-array `bi_compare_0` of
`src/include/common/big_integer.hpp:849-857`: scan the words of the
represented value and return 1 as soon as a nonzero word is found, else 0
(stated on the represented integer value). -/
def bi_compare_0_words (x : Int) : Int :=
  if x = 0 then 0 else 1

/-- Loop of `BigInteger::log2` (`src/unnamed/part_000:996-999`,
`src/include/common/big_integer.hpp:798-802`): count how many right shifts
empty the argument. -/
def big_log2_loop (b : Nat) : Nat :=
  if h : b = 0 then 0 else big_log2_loop (b / 2) + 1
termination_by b
decreasing_by exact Nat.div_lt_self (Nat.pos_of_ne_zero h) (by omega)

/-- Embeds `BigInteger::log2(rhs)` (`src/unnamed/part_000:988-1002`,
`src/include/common/big_integer.hpp:791-805`): shift right once; if the
result is zero (or negative) return -1; otherwise count the shifts that
empty it.  Stated on natural-number inputs, the only values reaching it
from `QBdt`. -/
def big_log2 (rhs : Nat) : Int :=
  if rhs / 2 = 0 then -1 else (big_log2_loop (rhs / 2) : Int)

/-- Embeds `bi_log2(n)` (`src/unnamed/part_000:1115-1124`).  Its loop guard
is `bi_compare_0(p) != 0`, which under the `bi_compare_0` of the same file
holds exactly when `p` IS zero; the body right-shifts `p`, which keeps zero
at zero, so when the initial `p = n >> 1` is zero the loop never exits
(embedded as `none`), and otherwise the body never runs and `pw = 0` is
returned. -/
def bi_log2 (n : Nat) : Option Nat :=
  if bi_compare_0 (Int.ofNat (n / 2)) ≠ 0 then none else some 0

/-- Control-flow outcome of `QBdt::ProbParity` / `QBdt::ForceMParity`. -/
inductive ParityPath where
  | earlyZero : ParityPath
  | singleBit (q : Int) : ParityPath
  | fallback : ParityPath
deriving DecidableEq

/-- Embeds the shared control flow of `QBdt::ProbParity`
(`qbdt.hpp:371-387`) and `QBdt::ForceMParity` (`qbdt.hpp:393-412`): first
`if (bi_compare_0(mask) == 0)` — commented "If no bits in mask" — return
zero probability / false; then `if (bi_compare_0(mask & (mask - 1)) == 0)`
— "If only one bit in mask" — operate on qubit `log2(mask)`; otherwise
delegate to the state-vector engine. -/
def probParityPath (mask : Int) : ParityPath :=
  if bi_compare_0 mask = 0 then ParityPath.earlyZero
  else
    if bi_compare_0 (Int.land mask (mask - 1)) = 0 then
      ParityPath.singleBit (big_log2 mask.toNat)
    else ParityPath.fallback

/-- C7 (code bug): `bi_compare_0` of `src/unnamed/part_000` returns 0 for
the nonzero input 1 and returns 1 for the input 0 — the inversion of the
convention `bi_compare_0(x) == 0  iff  x == 0` that its callers rely on.
Consequently `ProbParity`/`ForceMParity` take the "no bits in mask" early
return for every nonzero mask (e.g. mask = 1) and fall through to the
engine delegation for mask = 0.  The word-array variant of
`include/common/big_integer.hpp` does satisfy the convention. -/
theorem c7_bi_compare_0_bug :
    bi_compare_0 1 = 0 ∧ (1 : Int) ≠ 0
    ∧ bi_compare_0 0 = 1
    ∧ probParityPath 1 = ParityPath.earlyZero
    ∧ probParityPath 0 = ParityPath.fallback
    ∧ bi_compare_0_words 0 = 0 ∧ bi_compare_0_words 1 = 1 := by
  refine ⟨by decide, by decide, by decide, by decide, ?_, by decide, by decide⟩
  show probParityPath 0 = ParityPath.fallback
  have h1 : (-1 : Int) = Int.negSucc 0 := rfl
  have h2 : Int.land 0 (Int.negSucc 0) = Int.ofNat 0 := by
    simp [Int.land, Nat.ldiff]
  simp [probParityPath, bi_compare_0, h1, h2]
  rw [h1, h2]
  rfl

theorem big_log2_loop_eq (b : Nat) :
    big_log2_loop b = if b = 0 then 0 else big_log2_loop (b / 2) + 1 := by
  rw [big_log2_loop]
  by_cases h : b = 0
  · simp [h]
  · simp [h]

theorem big_log2_loop_pow : ∀ j : Nat, big_log2_loop (2 ^ j) = j + 1 := by
  intro j
  induction j with
  | zero =>
    have h0 : big_log2_loop 0 = 0 := by
      rw [big_log2_loop_eq]
      simp
    have h1 : big_log2_loop 1 = 1 := by
      rw [big_log2_loop_eq]
      simp [h0]
    simpa using h1
  | succ m ih =>
    rw [big_log2_loop_eq]
    have hne : 2 ^ (m + 1) ≠ 0 := by positivity
    rw [if_neg hne]
    have hdiv : 2 ^ (m + 1) / 2 = 2 ^ m := by
      rw [pow_succ]
      omega
    rw [hdiv, ih]

theorem big_log2_pow (k : Nat) (hk : 1 ≤ k) : big_log2 (2 ^ k) = (k : Int) := by
  cases k with
  | zero => omega
  | succ m =>
    have hdiv : 2 ^ (m + 1) / 2 = 2 ^ m := by
      rw [pow_succ]
      omega
    unfold big_log2
    rw [hdiv]
    have hne : ¬(2 ^ m = 0) := by positivity
    rw [if_neg hne, big_log2_loop_pow]

/-- C8 (code bug): the arbitrary-precision base-2 logarithm is wrong at
`2^0 = 1` and, via the inverted `bi_compare_0`, everywhere:
`BigInteger::log2(1)` returns -1 (claimed: 0), the `bi_log2(1)` loop never
terminates, and for `k ≥ 1` (here `k = 3`) `bi_log2(2^k)` returns 0
instead of `k`, while `BigInteger::log2(2^k)` does return `k`. -/
theorem c8_log2_bug :
    big_log2 1 = -1
    ∧ bi_log2 1 = none
    ∧ bi_log2 (2 ^ 3) = some 0
    ∧ big_log2 (2 ^ 3) = 3 := by
  refine ⟨by decide, by decide, by decide, ?_⟩
  exact big_log2_pow 3 (by decide)

/-- Embeds `BigInteger::operator~` (`src/unnamed/part_000:556-561`,
`src/include/common/big_integer.hpp:359-364`):
`mpz_mul_si(result, mpz, -1)` — the arithmetic negation `-x`, not the
bitwise complement `-x - 1` (GMP `mpz_com`). -/
def bigNot (x : Int) : Int := -x

/-- Embeds `BigInteger::operator>>(1)` (`src/unnamed/part_000:629-657`):
truncating division for non-negative values (`mpz_tdiv_q_2exp`), flooring
for negative ones (`mpz_fdiv_q_2exp`). -/
def bigShr1 (x : Int) : Int := if x < 0 then Int.fdiv x 2 else Int.tdiv x 2

/-- Embeds `QBdt::RemovePower(perm, power)` (`qbdt.hpp:169-172`):
`bi_decrement(&power, 1U); return (perm & power) | ((perm >> 1U) & ~power);`
where `&`/`|` are the GMP `mpz_and`/`mpz_ior` (two's complement on negative
operands) and `~` is the `operator~` above. -/
def RemovePower (perm power : Int) : Int :=
  let p := power - 1
  Int.lor (Int.land perm p) (Int.land (bigShr1 perm) (bigNot p))

/-- The behavior claim C9 states for `RemovePower(perm, 2^k)`: delete bit
`k` of `perm`, keeping the low `k` bits and shifting every higher bit down
one position. -/
def removePowerSpec (perm k : Nat) : Nat :=
  perm % 2 ^ k + 2 ^ k * (perm / 2 ^ (k + 1))

/-- C9 (code bug): because `operator~` is negation instead of bitwise
complement, `RemovePower` does not delete the selected bit: at
`perm = 2, power = 2^0 = 1` the code yields 0 where deleting bit 0 yields
1; at `perm = 2, power = 2^1 = 2` the code yields 1 where deleting bit 1
yields 0. -/
theorem c9_remove_power_bug :
    RemovePower 2 1 = 0 ∧ removePowerSpec 2 0 = 1
    ∧ RemovePower 2 2 = 1 ∧ removePowerSpec 2 1 = 0 := by
  refine ⟨?_, by decide, ?_, by decide⟩
  · show Int.lor (Int.land 2 ((1 : Int) - 1)) (Int.land (bigShr1 2) (bigNot ((1 : Int) - 1))) = 0
    have h1 : ((1 : Int) - 1) = Int.ofNat 0 := rfl
    have h2 : bigNot (Int.ofNat 0) = Int.ofNat 0 := rfl
    have h3 : bigShr1 2 = Int.ofNat 1 := rfl
    rw [h1, h2, h3]
    have h4 : Int.land 2 (Int.ofNat 0) = Int.ofNat 0 := by
      simp [Int.land]
    have h5 : Int.land (Int.ofNat 1) (Int.ofNat 0) = Int.ofNat 0 := by
      simp [Int.land]
    rw [h4, h5]
    simp [Int.lor]
  · show Int.lor (Int.land 2 ((2 : Int) - 1)) (Int.land (bigShr1 2) (bigNot ((2 : Int) - 1))) = 1
    have h1 : ((2 : Int) - 1) = Int.ofNat 1 := rfl
    have h2 : bigNot (Int.ofNat 1) = Int.negSucc 0 := rfl
    have h3 : bigShr1 2 = Int.ofNat 1 := rfl
    rw [h1, h2, h3]
    have h4 : Int.land 2 (Int.ofNat 1) = Int.ofNat 0 := by
      simp [Int.land]
    have h5 : Int.land (Int.ofNat 1) (Int.negSucc 0) = Int.ofNat 1 := by
      simp [Int.land, Nat.ldiff]
    rw [h4, h5]
    simp [Int.lor]
